import Mathlib

/-!
Shallow embedding of the dependency-graph walker of `poetry-plugin-export`
(`src/poetry_plugin_export/walker.py` and the extras validation of
`src/poetry_plugin_export/command.py`).

The environment-marker algebra is an external library (poetry-core); following
the specification, it is modelled as an opaque boolean algebra of finite sets
of environments: `intersect` is `∩`, `union` is `∪`, `is_empty` is `= ∅`, and
`without_extras` is passed to the walker as an explicit function argument.
Version constraints and python constraints are likewise modelled as the sets
of versions they allow: `constraint.allows v` is `v ∈ constraint` and
`a.allows_all b` is `b ⊆ a`.
-/

namespace PoetryExport

/-- An environment marker (condition): the set of environments it allows. -/
abbrev Marker := Finset Nat

/-- A dependency (requirement): `poetry.core.packages.dependency.Dependency`
as used by the walker: name, version constraint, marker, python constraint,
requested extras and the optional flag. -/
structure Dep where
  name : String
  constraint : Finset Nat
  marker : Marker
  pythonConstraint : Finset Nat
  extras : Finset String
  optional : Bool
  deriving DecidableEq

/-- A locked package: name, version, its own applicability marker, python
constraint, declared dependencies, extras table (extra name to the
sub-dependencies it activates), active features and the optional flag. -/
structure Pkg where
  name : String
  version : Nat
  marker : Marker
  pythonConstraint : Finset Nat
  requires : List Dep
  extrasTable : List (String × List Dep)
  features : Finset String
  optional : Bool
  deriving DecidableEq

/-- `Package.with_features`: a copy of the package with the given features. -/
def Pkg.withFeatures (p : Pkg) (fs : Finset String) : Pkg :=
  { p with features := fs }

/-- `locked_package.extras[feature]`: the sub-dependencies activated by the
given extra (empty when the extra is not in the table). -/
def Pkg.extraDeps (p : Pkg) (feature : String) : List Dep :=
  ((p.extrasTable.find? (fun e => e.1 == feature)).map Prod.snd).getD []

/-- `Package.to_dependency`: a dependency on exactly this package, carrying
the package's own applicability marker and its active features as extras. -/
def Pkg.toDependency (p : Pkg) : Dep :=
  { name := p.name
    constraint := {p.version}
    marker := p.marker
    pythonConstraint := p.pythonConstraint
    extras := p.features
    optional := false }

/-- `decided.get(package)` on the result dict, modelled as an association
list keyed by packages. -/
def lookupDecided (decided : List (Pkg × Dep)) (p : Pkg) : Option Dep :=
  (decided.find? (fun e => e.1 == p)).map Prod.snd

/-- The candidate filter of `get_locked_package` (walker.py lines 168-174):
the candidates of the dependency's name whose python constraint allows all
of the dependency's python constraint and whose version is allowed by the
dependency's version constraint. -/
def consistentPackages (dependency : Dep) (byName : String → List Pkg) :
    List Pkg :=
  (byName dependency.name).filter
    (fun package =>
      decide (dependency.pythonConstraint ⊆ package.pythonConstraint) &&
      decide (package.version ∈ dependency.constraint))

/-- The previous-decision test of `get_locked_package` (walker.py lines
178-184): the result map already holds a decision for this package and the
stored marker's intersection with the dependency's marker is non-empty. -/
def previousDecisionOk (dependency : Dep) (decided : List (Pkg × Dep))
    (package : Pkg) : Bool :=
  match lookupDecided decided package with
  | none => false
  | some old => decide (¬ (old.marker ∩ dependency.marker = ∅))

/-- `get_locked_package` (walker.py line 157): filter the candidates, prefer
the first candidate with a compatible previous decision, otherwise the
first remaining candidate. -/
def getLockedPackage (dependency : Dep) (byName : String → List Pkg)
    (decided : List (Pkg × Dep)) : Option Pkg :=
  match (consistentPackages dependency byName).find?
      (previousDecisionOk dependency decided) with
  | some package => some package
  | none => (consistentPackages dependency byName).head?

/-- The result-map merge (walker.py lines 146-152): insert the requirement
when the key is absent, otherwise replace the stored requirement's marker
with the union of the stored and the new marker. -/
def mergeResult (nested : List (Pkg × Dep)) (key : Pkg) (requirement : Dep) :
    List (Pkg × Dep) :=
  if (nested.find? (fun e => e.1 == key)).isSome then
    nested.map (fun e =>
      if e.1 == key then (e.1, { e.2 with marker := e.2.marker ∪ requirement.marker })
      else e)
  else nested ++ [(key, requirement)]

/-- The resolved locked package after applying the requested extras
(walker.py lines 120-121): when the requirement requests extras, the
package-with-features variant, otherwise the package itself. -/
def resolvedPackage (requirement : Dep) (locked0 : Pkg) : Pkg :=
  if requirement.extras = ∅ then locked0
  else locked0.withFeatures requirement.extras

/-- The requirement re-created from the locked package (walker.py lines
123-130): the package's own dependency with its marker intersected with
the popped requirement's marker and the original constraint retained. -/
def stepRequirement (requirement : Dep) (lockedPackage : Pkg) : Dep :=
  { lockedPackage.toDependency with
    marker := lockedPackage.toDependency.marker ∩ requirement.marker
    constraint := requirement.constraint }

/-- The sub-dependency expansion (walker.py lines 132-144): skip optional
sub-dependencies not activated by any feature of the package, narrow each
remaining sub-dependency's marker by the extras-stripped requirement
marker, and keep only those whose narrowed marker is non-empty. -/
def stepNewDeps (withoutExtras : Marker → Marker) (lockedPackage : Pkg)
    (requirementMarker : Marker) : List Dep :=
  lockedPackage.requires.filterMap (fun require =>
    if require.optional = true ∧
        ¬ ∃ feature ∈ lockedPackage.features,
          require ∈ lockedPackage.extraDeps feature then
      none
    else
      if require.marker ∩ withoutExtras requirementMarker = ∅ then none
      else some { require with
        marker := require.marker ∩ withoutExtras requirementMarker })

/-- The body of the walker loop for one popped unvisited requirement
(walker.py lines 113-152): resolve it, apply requested features, recompute
the requirement from the locked package, collect the surviving
sub-dependencies, and merge into the result map. Returns `none` when the
requirement cannot be resolved (the `RuntimeError` case). -/
def walkStep (withoutExtras : Marker → Marker) (byName : String → List Pkg)
    (requirement : Dep) (nested : List (Pkg × Dep)) :
    Option (List Dep × List (Pkg × Dep)) :=
  match getLockedPackage requirement byName nested with
  | none => none
  | some locked0 =>
    some (stepNewDeps withoutExtras (resolvedPackage requirement locked0)
        (stepRequirement requirement (resolvedPackage requirement locked0)).marker,
      mergeResult nested (resolvedPackage requirement locked0)
        (stepRequirement requirement (resolvedPackage requirement locked0)))

/-- Outcome of the walk: the final result map, a fatal error at an
unresolvable requirement, or fuel exhaustion of the embedding. -/
inductive WalkOut where
  | ok (nested : List (Pkg × Dep))
  | err (requirement : Dep)
  | fuelOut
  deriving DecidableEq

/-- The walker worklist loop (walker.py lines 100-154): pop the first
pending requirement, skip it when its (requirement, marker) pair is already
visited, otherwise run `walkStep`, append the produced requirements to the
queue and record the pair as visited. `fuel` bounds the number of
iterations of the embedded loop. -/
def walkAux (withoutExtras : Marker → Marker) (byName : String → List Pkg) :
    Nat → List Dep → List (Dep × Marker) → List (Pkg × Dep) → WalkOut
  | 0, _, _, _ => .fuelOut
  | _ + 1, [], _, nested => .ok nested
  | fuel + 1, requirement :: rest, visited, nested =>
    if (requirement, requirement.marker) ∈ visited then
      walkAux withoutExtras byName fuel rest visited nested
    else
      match walkStep withoutExtras byName requirement nested with
      | none => .err requirement
      | some (newDeps, nested') =>
        walkAux withoutExtras byName fuel (rest ++ newDeps)
          ((requirement, requirement.marker) :: visited) nested'

/-- `walk_dependencies`: run the worklist loop from the given root
requirements with empty visited set and empty result map. -/
def walkDependencies (withoutExtras : Marker → Marker)
    (dependencies : List Dep) (byName : String → List Pkg) (fuel : Nat) :
    WalkOut :=
  walkAux withoutExtras byName fuel dependencies [] []

/-- Stable insertion into a version-descending list: the package goes before
the first strictly smaller version, after all greater-or-equal ones. -/
def insertDescByVersion (p : Pkg) : List Pkg → List Pkg
  | [] => [p]
  | q :: qs =>
    if q.version < p.version then p :: q :: qs
    else q :: insertDescByVersion p qs

/-- Stable sort by version, higher versions first (walker.py lines 85-90). -/
def sortDescByVersion (l : List Pkg) : List Pkg :=
  l.foldl (fun acc p => insertDescByVersion p acc) []

/-- The locked package index (walker.py lines 79-90): group the locked
packages by name, each group sorted by version descending. -/
def packagesByName (lockedPackages : List Pkg) : String → List Pkg :=
  fun name => sortDescByVersion (lockedPackages.filter (fun p => p.name == name))

/-- `get_project_dependencies`: build the index and walk from the project
requirements. -/
def getProjectDependencies (withoutExtras : Marker → Marker)
    (projectRequires : List Dep) (lockedPackages : List Pkg) (fuel : Nat) :
    WalkOut :=
  walkAux withoutExtras (packagesByName lockedPackages) fuel projectRequires [] []

/-- `Repository.find_packages` of the external Locker collaborator: the
locked packages matching the dependency's name whose version its constraint
allows. -/
def findPackages (lockedPackages : List Pkg) (dependency : Dep) : List Pkg :=
  lockedPackages.filter (fun p =>
    p.name == dependency.name && decide (p.version ∈ dependency.constraint))

/-- The `extras` argument of `get_project_dependency_packages`:
`True` (all extras) or an explicit selection (`None`/`False` are the empty
selection). -/
inductive ExtrasSelection where
  | allExtras
  | selected (names : List String)
  deriving DecidableEq

/-- The root-selection loop of `get_project_dependency_packages` (walker.py
lines 50-64): a root requirement is kept iff some locked package matches it
(the `IndexError` case silently skips it) and that package is not an
optional package left inactive by the requested extras. `extraPackageNames`
is `none` when all extras were requested. -/
def selectRoots (lockedPackages : List Pkg)
    (extraPackageNames : Option (List String)) (requires : List Dep) :
    List Dep :=
  requires.filter (fun dependency =>
    match (findPackages lockedPackages dependency).head? with
    | none => false
    | some package =>
      match extraPackageNames with
      | none => true
      | some names => !(package.optional && !(names.contains package.name)))

/-- `get_project_dependency_packages` (walker.py lines 21-70): narrow every
root requirement's marker by the project python marker when one is given,
drop roots with no locked package of matching name and version, drop roots
whose locked package is optional and not activated by the requested extras
(unless all extras were requested), then walk. The external
`get_extra_package_names` helper is passed in as a function. -/
def getProjectDependencyPackages (withoutExtras : Marker → Marker)
    (getExtraPackageNames : List Pkg → List (String × List String) → List String → List String)
    (lockedPackages : List Pkg) (lockDataExtras : List (String × List String))
    (projectRequires : List Dep) (projectPythonMarker : Option Marker)
    (extras : ExtrasSelection) (fuel : Nat) : WalkOut :=
  let markedRequires : List Dep :=
    match projectPythonMarker with
    | none => projectRequires
    | some pm => projectRequires.map (fun r => { r with marker := r.marker ∩ pm })
  let extraPackageNames : Option (List String) :=
    match extras with
    | .allExtras => none
    | .selected names => some (getExtraPackageNames lockedPackages lockDataExtras names)
  getProjectDependencies withoutExtras
    (selectRoots lockedPackages extraPackageNames markedRequires)
    lockedPackages fuel

/-- The extras handling of `ExportCommand.handle` (command.py lines 114-135):
explicit extras together with all-extras is rejected; all-extras selects the
declared extras; otherwise unknown names raise an error listing them sorted
and comma-joined. -/
def handleExtras (extrasOption : List String) (allExtras : Bool)
    (declaredExtras : Finset String) : Except String (Finset String) :=
  if extrasOption ≠ [] ∧ allExtras = true then
    .error "You cannot specify explicit extras while exporting using all-extras."
  else if allExtras = true then
    .ok declaredExtras
  else if extrasOption.toFinset \ declaredExtras = ∅ then
    .ok extrasOption.toFinset
  else
    .error
      ("Extra [" ++
        String.intercalate ", "
          ((extrasOption.toFinset \ declaredExtras).sort (· ≤ ·)) ++
        "] is not specified.")

/-! ### Basic lemmas about the locked package index -/

/-- Order used by the index: higher versions first. -/
def versionDesc (a b : Pkg) : Prop := b.version ≤ a.version

theorem mem_insertDescByVersion {a p : Pkg} {l : List Pkg} :
    a ∈ insertDescByVersion p l ↔ a = p ∨ a ∈ l := by
  induction l with
  | nil => simp [insertDescByVersion]
  | cons q qs ih =>
    rw [insertDescByVersion]
    split
    · simp
    · simp only [List.mem_cons, ih]
      tauto

theorem pairwise_insertDescByVersion {p : Pkg} {l : List Pkg}
    (h : l.Pairwise versionDesc) :
    (insertDescByVersion p l).Pairwise versionDesc := by
  induction l with
  | nil => simp [insertDescByVersion, versionDesc]
  | cons q qs ih =>
    rw [insertDescByVersion]
    rw [List.pairwise_cons] at h
    split
    · rename_i hlt
      rw [List.pairwise_cons]
      refine ⟨?_, List.pairwise_cons.mpr h⟩
      intro b hb
      rcases List.mem_cons.mp hb with hb | hb
      · exact hb ▸ Nat.le_of_lt hlt
      · exact Nat.le_trans (h.1 b hb) (Nat.le_of_lt hlt)
    · rename_i hge
      rw [List.pairwise_cons]
      refine ⟨?_, ih h.2⟩
      intro b hb
      rcases mem_insertDescByVersion.mp hb with hb | hb
      · exact hb ▸ Nat.le_of_not_lt hge
      · exact h.1 b hb

theorem mem_foldl_insertDescByVersion {a : Pkg} :
    ∀ (l acc : List Pkg),
      a ∈ l.foldl (fun acc p => insertDescByVersion p acc) acc ↔
        a ∈ acc ∨ a ∈ l := by
  intro l
  induction l with
  | nil => simp
  | cons p ps ih =>
    intro acc
    rw [List.foldl_cons, ih, mem_insertDescByVersion]
    simp
    tauto

theorem pairwise_foldl_insertDescByVersion :
    ∀ (l acc : List Pkg), acc.Pairwise versionDesc →
      (l.foldl (fun acc p => insertDescByVersion p acc) acc).Pairwise versionDesc := by
  intro l
  induction l with
  | nil => intro acc h; simpa using h
  | cons p ps ih =>
    intro acc h
    exact ih _ (pairwise_insertDescByVersion h)

theorem mem_sortDescByVersion {a : Pkg} {l : List Pkg} :
    a ∈ sortDescByVersion l ↔ a ∈ l := by
  rw [sortDescByVersion, mem_foldl_insertDescByVersion]
  simp

theorem sortDescByVersion_pairwise (l : List Pkg) :
    (sortDescByVersion l).Pairwise versionDesc :=
  pairwise_foldl_insertDescByVersion l [] (by simp)

theorem mem_packagesByName {p : Pkg} {locked : List Pkg} {name : String} :
    p ∈ packagesByName locked name ↔ p ∈ locked ∧ p.name = name := by
  rw [packagesByName, mem_sortDescByVersion, List.mem_filter]
  simp

theorem packagesByName_pairwise (locked : List Pkg) (name : String) :
    (packagesByName locked name).Pairwise versionDesc :=
  (sortDescByVersion_pairwise _)

theorem consistentPackages_pairwise (dependency : Dep) (locked : List Pkg) :
    (consistentPackages dependency (packagesByName locked)).Pairwise versionDesc :=
  (packagesByName_pairwise locked dependency.name).filter _

theorem head_version_max {l : List Pkg} (h : l.Pairwise versionDesc) {q : Pkg}
    (hq : l.head? = some q) : ∀ p ∈ l, p.version ≤ q.version := by
  cases l with
  | nil => cases hq
  | cons x t =>
    cases hq
    rw [List.pairwise_cons] at h
    intro p hp
    rcases List.mem_cons.mp hp with hp | hp
    · exact hp ▸ Nat.le_refl _
    · exact h.1 p hp

/-- Membership in the candidate filter, spelled out. -/
theorem mem_consistentPackages {package : Pkg} {dependency : Dep}
    {byName : String → List Pkg} :
    package ∈ consistentPackages dependency byName ↔
      package ∈ byName dependency.name ∧
      dependency.pythonConstraint ⊆ package.pythonConstraint ∧
      package.version ∈ dependency.constraint := by
  rw [consistentPackages, List.mem_filter]
  simp

/-- `get_locked_package` only ever returns one of the filtered candidates. -/
theorem getLockedPackage_mem {dependency : Dep} {byName : String → List Pkg}
    {decided : List (Pkg × Dep)} {package : Pkg}
    (h : getLockedPackage dependency byName decided = some package) :
    package ∈ consistentPackages dependency byName := by
  rw [getLockedPackage] at h
  rcases hf : (consistentPackages dependency byName).find? _ with _ | q
  · rw [hf] at h
    simp only at h
    exact List.mem_of_mem_head? h
  · rw [hf] at h
    simp only [Option.some.injEq] at h
    exact h ▸ List.mem_of_find?_eq_some hf

/-! ### Claim C5 -/

/-- The candidate-filter predicate as the specification words it: the
version satisfies the requirement's constraint and the package's own
python applicability is compatible — not provably disjoint — with the
requirement's. -/
def specCandidateKeep (package : Pkg) (dependency : Dep) : Prop :=
  package.version ∈ dependency.constraint ∧
  ¬ (package.pythonConstraint ∩ dependency.pythonConstraint = ∅)

def depC5 : Dep :=
  { name := "p", constraint := {1}, marker := {0},
    pythonConstraint := {0, 1}, extras := ∅, optional := false }

def pkgC5 : Pkg :=
  { name := "p", version := 1, marker := {0}, pythonConstraint := {1},
    requires := [], extrasTable := [], features := ∅, optional := false }

/-- Claim C5, as stated, is false: a locked package of the requirement's
name whose version satisfies the constraint and whose python applicability
overlaps (is not provably disjoint from) the requirement's is nevertheless
excluded, because the code requires the package's python constraint to
allow ALL of the requirement's python constraint. -/
theorem C5_counterexample :
    specCandidateKeep pkgC5 depC5 ∧
    pkgC5 ∈ packagesByName [pkgC5] depC5.name ∧
    consistentPackages depC5 (packagesByName [pkgC5]) = [] ∧
    getLockedPackage depC5 (packagesByName [pkgC5]) [] = none := by
  refine ⟨⟨by decide, by decide⟩, by decide, by decide, by decide⟩

/-- Claim C5, amended: the tie-breaker's filter keeps exactly those locked
packages of the requirement's name whose version satisfies the version
constraint and whose python constraint allows all of the requirement's
python constraint (containment, not mere compatibility); every package
failing either test is excluded from consideration, and the returned
package always passes the filter. -/
theorem C5_filter_exact (dependency : Dep) (byName : String → List Pkg) :
    (∀ package,
      package ∈ consistentPackages dependency byName ↔
        package ∈ byName dependency.name ∧
        dependency.pythonConstraint ⊆ package.pythonConstraint ∧
        package.version ∈ dependency.constraint) ∧
    (∀ decided package,
      getLockedPackage dependency byName decided = some package →
        dependency.pythonConstraint ⊆ package.pythonConstraint ∧
        package.version ∈ dependency.constraint) := by
  constructor
  · intro package
    exact mem_consistentPackages
  · intro decided package h
    exact (mem_consistentPackages.mp (getLockedPackage_mem h)).2

def pkgC5W : Pkg :=
  { name := "p", version := 1, marker := {0}, pythonConstraint := {0, 1},
    requires := [], extrasTable := [], features := ∅, optional := false }

/-- Witness for the amended C5 theorem at a concrete input. -/
theorem C5_filter_exact_witness :
    pkgC5W ∈ consistentPackages depC5 (fun _ => [pkgC5W]) ∧
    (depC5.pythonConstraint ⊆ pkgC5W.pythonConstraint ∧
      pkgC5W.version ∈ depC5.constraint) :=
  ⟨((C5_filter_exact depC5 (fun _ => [pkgC5W])).1 pkgC5W).mpr (by decide),
   (C5_filter_exact depC5 (fun _ => [pkgC5W])).2 [] pkgC5W (by decide)⟩

/-! ### Claim C4 -/

/-- Claim C4: for a requirement with at least one surviving candidate,
`get_locked_package` returns a previously decided candidate whose stored
condition meets the requirement's condition when such a candidate exists,
and otherwise the first remaining candidate, which has the highest version
among the candidates because the per-name lists are sorted by version
descending when the index is built. -/
theorem C4_tie_breaker (dependency : Dep) (lockedPackages : List Pkg)
    (decided : List (Pkg × Dep)) :
    ((∃ p ∈ consistentPackages dependency (packagesByName lockedPackages),
        ∃ old, lookupDecided decided p = some old ∧
          ¬ (old.marker ∩ dependency.marker = ∅)) →
      ∃ q, getLockedPackage dependency (packagesByName lockedPackages) decided
          = some q ∧
        q ∈ consistentPackages dependency (packagesByName lockedPackages) ∧
        ∃ old, lookupDecided decided q = some old ∧
          ¬ (old.marker ∩ dependency.marker = ∅)) ∧
    ((∀ p ∈ consistentPackages dependency (packagesByName lockedPackages),
        ∀ old, lookupDecided decided p = some old →
          old.marker ∩ dependency.marker = ∅) →
      getLockedPackage dependency (packagesByName lockedPackages) decided =
        (consistentPackages dependency (packagesByName lockedPackages)).head? ∧
      ∀ q, (consistentPackages dependency (packagesByName lockedPackages)).head?
          = some q →
        ∀ p ∈ consistentPackages dependency (packagesByName lockedPackages),
          p.version ≤ q.version) := by
  constructor
  · rintro ⟨p, hp, old, hold, hne⟩
    have hsome : ((consistentPackages dependency
        (packagesByName lockedPackages)).find?
          (previousDecisionOk dependency decided)).isSome := by
      rw [List.find?_isSome]
      refine ⟨p, hp, ?_⟩
      rw [previousDecisionOk, hold]
      exact decide_eq_true hne
    rcases Option.isSome_iff_exists.mp hsome with ⟨q, hq⟩
    have hPq := List.find?_some hq
    rw [previousDecisionOk] at hPq
    refine ⟨q, ?_, List.mem_of_find?_eq_some hq, ?_⟩
    · rw [getLockedPackage, hq]
    · rcases hl : lookupDecided decided q with _ | old'
      · rw [hl] at hPq
        cases hPq
      · rw [hl] at hPq
        exact ⟨old', rfl, of_decide_eq_true hPq⟩
  · intro hnone
    have hfind : ((consistentPackages dependency
        (packagesByName lockedPackages)).find?
          (previousDecisionOk dependency decided)) = none := by
      rw [List.find?_eq_none]
      intro x hx
      rw [previousDecisionOk]
      rcases hl : lookupDecided decided x with _ | old
      · simp
      · simpa using hnone x hx old hl
    refine ⟨by rw [getLockedPackage, hfind], ?_⟩
    intro q hq
    exact head_version_max (consistentPackages_pairwise dependency lockedPackages) hq

def depC4 : Dep :=
  { name := "foo", constraint := {1, 2}, marker := {0},
    pythonConstraint := ∅, extras := ∅, optional := false }

def pkgC4v1 : Pkg :=
  { name := "foo", version := 1, marker := {0, 1}, pythonConstraint := ∅,
    requires := [], extrasTable := [], features := ∅, optional := false }

def pkgC4v2 : Pkg :=
  { name := "foo", version := 2, marker := {0, 1}, pythonConstraint := ∅,
    requires := [], extrasTable := [], features := ∅, optional := false }

def oldC4 : Dep :=
  { name := "foo", constraint := {1}, marker := {0},
    pythonConstraint := ∅, extras := ∅, optional := false }

/-- Witness for C4 at a concrete input: with a compatible previous decision
for version 1 recorded, the tie-breaker sticks with version 1 even though
version 2 is also a candidate. -/
theorem C4_tie_breaker_witness :
    ∃ q, getLockedPackage depC4 (packagesByName [pkgC4v1, pkgC4v2])
        [(pkgC4v1, oldC4)] = some q ∧
      q ∈ consistentPackages depC4 (packagesByName [pkgC4v1, pkgC4v2]) ∧
      ∃ old, lookupDecided [(pkgC4v1, oldC4)] q = some old ∧
        ¬ (old.marker ∩ depC4.marker = ∅) :=
  (C4_tie_breaker depC4 [pkgC4v1, pkgC4v2] [(pkgC4v1, oldC4)]).1
    ⟨pkgC4v1, by decide, oldC4, by decide, by decide⟩

/-! ### Claim C7 -/

/-- Claim C7: a request naming at least one extra not declared in the
project's extras table fails with a single error message naming all
unknown extras, sorted and comma-joined, while a request naming only
declared extras passes extras validation. -/
theorem C7_invalid_extras (extrasOption : List String)
    (declared : Finset String) :
    (extrasOption.toFinset \ declared ≠ ∅ →
      handleExtras extrasOption false declared =
        .error ("Extra [" ++
          String.intercalate ", "
            ((extrasOption.toFinset \ declared).sort (· ≤ ·)) ++
          "] is not specified.")) ∧
    (extrasOption.toFinset \ declared = ∅ →
      handleExtras extrasOption false declared = .ok extrasOption.toFinset) := by
  constructor
  · intro h
    rw [handleExtras, if_neg (by simp), if_neg (by simp), if_neg h]
  · intro h
    rw [handleExtras, if_neg (by simp), if_neg (by simp), if_pos h]

/-- Witness for C7: requesting extra "missing" when the project declares
extras "feature-a" and "feature-b" yields the error naming exactly
"missing", and requesting "feature-a" passes. -/
theorem C7_invalid_extras_witness :
    handleExtras ["missing"] false {"feature-a", "feature-b"} =
      .error "Extra [missing] is not specified." ∧
    handleExtras ["feature-a"] false {"feature-a", "feature-b"} =
      .ok ({"feature-a"} : Finset String) := by
  constructor
  · have h := (C7_invalid_extras ["missing"] {"feature-a", "feature-b"}).1
      (by decide)
    have hd : ["missing"].toFinset \ ({"feature-a", "feature-b"} : Finset String)
        = ({"missing"} : Finset String) := by decide
    rw [hd, Finset.sort_singleton] at h
    rw [h]
    rfl
  · have h := (C7_invalid_extras ["feature-a"] {"feature-a", "feature-b"}).2
      (by decide)
    rw [h]
    rfl

/-! ### Step lemmas shared across claims -/

theorem resolvedPackage_marker (requirement : Dep) (locked0 : Pkg) :
    (resolvedPackage requirement locked0).marker = locked0.marker := by
  rw [resolvedPackage]
  split <;> rfl

theorem stepRequirement_marker (requirement : Dep) (lockedPackage : Pkg) :
    (stepRequirement requirement lockedPackage).marker =
      lockedPackage.marker ∩ requirement.marker := rfl

theorem walkStep_of_resolved {withoutExtras : Marker → Marker}
    {byName : String → List Pkg} {requirement : Dep}
    {nested : List (Pkg × Dep)} {locked0 : Pkg}
    (hres : getLockedPackage requirement byName nested = some locked0) :
    walkStep withoutExtras byName requirement nested =
      some (stepNewDeps withoutExtras (resolvedPackage requirement locked0)
          (stepRequirement requirement (resolvedPackage requirement locked0)).marker,
        mergeResult nested (resolvedPackage requirement locked0)
          (stepRequirement requirement (resolvedPackage requirement locked0))) := by
  rw [walkStep, hres]

theorem walkStep_of_unresolved {withoutExtras : Marker → Marker}
    {byName : String → List Pkg} {requirement : Dep}
    {nested : List (Pkg × Dep)}
    (hres : getLockedPackage requirement byName nested = none) :
    walkStep withoutExtras byName requirement nested = none := by
  rw [walkStep, hres]

/-- Provenance of expanded sub-dependencies: every queued dependency comes
from a declared, non-gated sub-dependency of the resolved package, with
its marker narrowed and non-empty. -/
theorem mem_stepNewDeps {withoutExtras : Marker → Marker}
    {lockedPackage : Pkg} {requirementMarker : Marker} {d : Dep}
    (hd : d ∈ stepNewDeps withoutExtras lockedPackage requirementMarker) :
    ∃ require ∈ lockedPackage.requires,
      d = { require with
        marker := require.marker ∩ withoutExtras requirementMarker } ∧
      ¬ (require.marker ∩ withoutExtras requirementMarker = ∅) ∧
      ¬ (require.optional = true ∧
          ¬ ∃ feature ∈ lockedPackage.features,
            require ∈ lockedPackage.extraDeps feature) := by
  rw [stepNewDeps, List.mem_filterMap] at hd
  rcases hd with ⟨require, hmem, heq⟩
  refine ⟨require, hmem, ?_⟩
  by_cases hgate : require.optional = true ∧
      ¬ ∃ feature ∈ lockedPackage.features,
        require ∈ lockedPackage.extraDeps feature
  · rw [if_pos hgate] at heq
    cases heq
  · rw [if_neg hgate] at heq
    by_cases hm : require.marker ∩ withoutExtras requirementMarker = ∅
    · rw [if_pos hm] at heq
      cases heq
    · rw [if_neg hm] at heq
      exact ⟨(Option.some.injEq _ _ ▸ heq).symm, hm, hgate⟩

/-! ### Claim C3 -/

def depC3 : Dep :=
  { name := "z", constraint := {1}, marker := {0},
    pythonConstraint := ∅, extras := ∅, optional := false }

def pkgC3 : Pkg :=
  { name := "z", version := 1, marker := {1}, pythonConstraint := ∅,
    requires := [], extrasTable := [], features := ∅, optional := false }

/-- Claim C3, as stated, is false: a requirement whose marker is disjoint
from the resolved package's applicability marker (empty edge condition) is
NOT dropped from the result map — the walker still inserts the package,
with the empty condition. -/
theorem C3_counterexample :
    pkgC3.marker ∩ depC3.marker = ∅ ∧
    walkDependencies id [depC3] (packagesByName [pkgC3]) 2 =
      .ok [(pkgC3,
        { pkgC3.toDependency with marker := ∅, constraint := depC3.constraint })] := by
  refine ⟨by decide, by decide⟩

/-- Claim C3, amended: when the edge condition — the intersection of the
popped requirement's condition with the resolved package's applicability
condition — is empty, none of the package's declared dependencies are
enqueued (provided the marker algebra's extras-stripping preserves
emptiness, as poetry-core's does); the package itself is nevertheless
still merged into the result map with the empty condition. -/
theorem C3_empty_edge (withoutExtras : Marker → Marker)
    (byName : String → List Pkg) (requirement : Dep)
    (nested : List (Pkg × Dep)) (locked0 : Pkg)
    (hres : getLockedPackage requirement byName nested = some locked0)
    (hwe : withoutExtras ∅ = ∅)
    (hempty : locked0.marker ∩ requirement.marker = ∅) :
    (stepRequirement requirement (resolvedPackage requirement locked0)).marker
      = ∅ ∧
    walkStep withoutExtras byName requirement nested =
      some ([], mergeResult nested (resolvedPackage requirement locked0)
        (stepRequirement requirement (resolvedPackage requirement locked0))) := by
  have hm : (stepRequirement requirement
      (resolvedPackage requirement locked0)).marker = ∅ := by
    rw [stepRequirement_marker, resolvedPackage_marker]
    exact hempty
  refine ⟨hm, ?_⟩
  rw [walkStep_of_resolved hres, hm]
  have hnil : stepNewDeps withoutExtras (resolvedPackage requirement locked0) ∅
      = [] := by
    rw [stepNewDeps, List.filterMap_eq_nil_iff]
    intro require _
    split
    · rfl
    · rw [if_pos (by rw [hwe]; exact Finset.inter_empty _)]
  rw [hnil]

/-- Witness for the amended C3 theorem at the concrete counterexample
input. -/
theorem C3_empty_edge_witness :
    (stepRequirement depC3 (resolvedPackage depC3 pkgC3)).marker = ∅ ∧
    walkStep id (packagesByName [pkgC3]) depC3 [] =
      some ([], mergeResult [] (resolvedPackage depC3 pkgC3)
        (stepRequirement depC3 (resolvedPackage depC3 pkgC3))) :=
  C3_empty_edge id (packagesByName [pkgC3]) depC3 [] pkgC3 (by decide) rfl
    (by decide)

/-! ### Claim C2 -/

/-- Claim C2, as stated, is false for root requirements: a root requirement
naming a package absent from the lock is silently dropped by the root
selection of `get_project_dependency_packages`, and the export succeeds
with an empty result instead of failing. -/
theorem C2_counterexample :
    getProjectDependencyPackages id (fun _ _ _ => []) [] [] [depC3] none
      (.selected []) 1 = .ok [] := by
  decide

/-- Claim C2, amended: a requirement popped during the walk that the
tie-breaker cannot resolve makes the whole walk fail with the fatal error
(no partial result map is returned); however a root requirement with no
locked package matching its name and version constraint is silently
dropped by the root-selection stage and never reaches the walk. -/
theorem C2_unresolvable (withoutExtras : Marker → Marker)
    (byName : String → List Pkg) (fuel : Nat) (requirement : Dep)
    (rest : List Dep) (visited : List (Dep × Marker))
    (nested : List (Pkg × Dep))
    (hnotvis : (requirement, requirement.marker) ∉ visited)
    (hfail : getLockedPackage requirement byName nested = none) :
    walkAux withoutExtras byName (fuel + 1) (requirement :: rest) visited
        nested = .err requirement ∧
    ∀ (lockedPackages : List Pkg) (extraPackageNames : Option (List String))
        (requires : List Dep) (r : Dep),
      findPackages lockedPackages r = [] →
      r ∉ selectRoots lockedPackages extraPackageNames requires := by
  constructor
  · rw [walkAux, if_neg hnotvis, walkStep_of_unresolved hfail]
  · intro lockedPackages extraPackageNames requires r hnone hmem
    rw [selectRoots, List.mem_filter, hnone] at hmem
    simp at hmem

/-- Witness for the amended C2 theorem: a walk whose queue holds a
requirement absent from the lock fails with the fatal error. -/
theorem C2_unresolvable_witness :
    walkAux id (packagesByName []) 1 [depC3] [] [] = .err depC3 ∧
    ∀ (lockedPackages : List Pkg) (extraPackageNames : Option (List String))
        (requires : List Dep) (r : Dep),
      findPackages lockedPackages r = [] →
      r ∉ selectRoots lockedPackages extraPackageNames requires :=
  C2_unresolvable id (packagesByName []) 0 depC3 [] [] []
    (by decide) (by decide)

/-! ### Claim C8 -/

/-- Claim C8: an optional sub-dependency gated behind an extra that is not
among the features active on the incoming requirement is never enqueued —
every dependency that IS enqueued is the marker-narrowed copy of a
declared sub-dependency that is either non-optional or activated by an
active feature, so no enqueued dependency originates from a gated optional
sub-dependency; and at root selection an optional locked package whose
name is not among the extra-activated package names is excluded (while
with all extras requested every matched root is kept). -/
theorem C8_extra_gating (withoutExtras : Marker → Marker)
    (byName : String → List Pkg) (requirement : Dep)
    (nested : List (Pkg × Dep)) (newDeps : List Dep)
    (nested' : List (Pkg × Dep))
    (hstep : walkStep withoutExtras byName requirement nested =
      some (newDeps, nested')) :
    (∃ locked0, getLockedPackage requirement byName nested = some locked0 ∧
      ∀ d ∈ newDeps,
        ∃ require ∈ (resolvedPackage requirement locked0).requires,
          d = { require with
            marker := require.marker ∩ withoutExtras
              (stepRequirement requirement
                (resolvedPackage requirement locked0)).marker } ∧
          ¬ (require.optional = true ∧
              ¬ ∃ feature ∈ (resolvedPackage requirement locked0).features,
                require ∈ (resolvedPackage requirement locked0).extraDeps
                  feature)) ∧
    (∀ (lockedPackages : List Pkg) (names : List String)
        (requires : List Dep) (r : Dep) (package : Pkg),
      (findPackages lockedPackages r).head? = some package →
      package.optional = true →
      names.contains package.name = false →
      r ∉ selectRoots lockedPackages (some names) requires) ∧
    (∀ (lockedPackages : List Pkg) (requires : List Dep) (r : Dep)
        (package : Pkg),
      r ∈ requires →
      (findPackages lockedPackages r).head? = some package →
      r ∈ selectRoots lockedPackages none requires) := by
  refine ⟨?_, ?_, ?_⟩
  · rcases hres : getLockedPackage requirement byName nested with _ | locked0
    · rw [walkStep_of_unresolved hres] at hstep
      cases hstep
    · rw [walkStep_of_resolved hres] at hstep
      refine ⟨locked0, rfl, ?_⟩
      intro d hd
      have hnew : newDeps = stepNewDeps withoutExtras
          (resolvedPackage requirement locked0)
          (stepRequirement requirement
            (resolvedPackage requirement locked0)).marker := by
        cases hstep
        rfl
      rw [hnew] at hd
      rcases mem_stepNewDeps hd with ⟨require, hmem, heq, _, hgate⟩
      exact ⟨require, hmem, heq, hgate⟩
  · intro lockedPackages names requires r package hhead hopt hname hmem
    rw [selectRoots, List.mem_filter, hhead] at hmem
    simp only [hopt, hname] at hmem
    simp at hmem
  · intro lockedPackages requires r package hr hhead
    rw [selectRoots, List.mem_filter, hhead]
    exact ⟨hr, rfl⟩

def depC8opt : Dep :=
  { name := "opt", constraint := {1}, marker := {0},
    pythonConstraint := ∅, extras := ∅, optional := true }

def depC8req : Dep :=
  { name := "req", constraint := {1}, marker := {0},
    pythonConstraint := ∅, extras := ∅, optional := false }

def pkgC8 : Pkg :=
  { name := "g", version := 1, marker := {0}, pythonConstraint := ∅,
    requires := [depC8opt, depC8req], extrasTable := [("feat", [depC8opt])],
    features := ∅, optional := false }

def depC8root : Dep :=
  { name := "g", constraint := {1}, marker := {0},
    pythonConstraint := ∅, extras := ∅, optional := false }

/-- Witness for C8: walking into a package with an extra-gated optional
sub-dependency and a mandatory one, without requesting the extra, enqueues
only marker-narrowed copies of non-gated sub-dependencies (concretely,
the gated one is absent from the queue). -/
theorem C8_extra_gating_witness :
    (∃ locked0,
      getLockedPackage depC8root (packagesByName [pkgC8]) [] = some locked0 ∧
      ∀ d ∈ stepNewDeps id (resolvedPackage depC8root pkgC8)
          (stepRequirement depC8root (resolvedPackage depC8root pkgC8)).marker,
        ∃ require ∈ (resolvedPackage depC8root locked0).requires,
          d = { require with
            marker := require.marker ∩ id
              (stepRequirement depC8root
                (resolvedPackage depC8root locked0)).marker } ∧
          ¬ (require.optional = true ∧
              ¬ ∃ feature ∈ (resolvedPackage depC8root locked0).features,
                require ∈ (resolvedPackage depC8root locked0).extraDeps
                  feature)) ∧
    stepNewDeps id (resolvedPackage depC8root pkgC8)
        (stepRequirement depC8root (resolvedPackage depC8root pkgC8)).marker =
      [{ depC8req with marker := {0} }] := by
  have hres0 : getLockedPackage depC8root (packagesByName [pkgC8]) []
      = some pkgC8 := by decide
  have h := C8_extra_gating id (packagesByName [pkgC8]) depC8root [] _ _
    (walkStep_of_resolved hres0)
  refine ⟨?_, by decide⟩
  rcases h.1 with ⟨locked0, hres, hall⟩
  rw [hres0] at hres
  injection hres with hres
  subst hres
  exact ⟨pkgC8, hres0, hall⟩

/-! ### Claim C10 -/

/-- Values stored in the result map keep their markers inside `P` whenever
all queued markers and all stored markers are inside `P` and the
extras-stripping respects `P`. -/
theorem walkAux_marker_closed (withoutExtras : Marker → Marker)
    (byName : String → List Pkg) (P : Marker)
    (hwe : ∀ m : Marker, m ⊆ P → withoutExtras m ⊆ P) :
    ∀ (fuel : Nat) (queue : List Dep) (visited : List (Dep × Marker))
      (nested : List (Pkg × Dep)),
      (∀ d ∈ queue, d.marker ⊆ P) →
      (∀ e ∈ nested, (e : Pkg × Dep).2.marker ⊆ P) →
      ∀ res, walkAux withoutExtras byName fuel queue visited nested = .ok res →
        ∀ e ∈ res, (e : Pkg × Dep).2.marker ⊆ P := by
  intro fuel
  induction fuel with
  | zero =>
    intro queue visited nested _ _ res hres
    cases hres
  | succ fuel ih =>
    intro queue visited nested hq hn res hres
    match queue with
    | [] =>
      rw [walkAux] at hres
      cases hres
      exact hn
    | requirement :: rest =>
      by_cases hv : (requirement, requirement.marker) ∈ visited
      · rw [walkAux, if_pos hv] at hres
        exact ih rest visited nested (fun d hd => hq d (List.mem_cons_of_mem _ hd))
          hn res hres
      · rw [walkAux, if_neg hv] at hres
        rcases hres2 : walkStep withoutExtras byName requirement nested with
          _ | ⟨newDeps, nested'⟩
        · rw [hres2] at hres
          cases hres
        · rw [hres2] at hres
          rcases hlp : getLockedPackage requirement byName nested with _ | locked0
          · rw [walkStep_of_unresolved hlp] at hres2
            cases hres2
          · rw [walkStep_of_resolved hlp] at hres2
            have hreqm : (stepRequirement requirement
                (resolvedPackage requirement locked0)).marker ⊆ P := by
              rw [stepRequirement_marker]
              exact subset_trans (Finset.inter_subset_right)
                (hq requirement (List.mem_cons_self _ _))
            have hqueue : ∀ d ∈ rest ++ stepNewDeps withoutExtras
                (resolvedPackage requirement locked0)
                (stepRequirement requirement
                  (resolvedPackage requirement locked0)).marker,
                d.marker ⊆ P := by
              intro d hd
              rcases List.mem_append.mp hd with hd | hd
              · exact hq d (List.mem_cons_of_mem _ hd)
              · rcases mem_stepNewDeps hd with ⟨require, _, heq, _, _⟩
                rw [heq]
                exact subset_trans (Finset.inter_subset_right) (hwe _ hreqm)
            have hnested : ∀ e ∈ mergeResult nested
                (resolvedPackage requirement locked0)
                (stepRequirement requirement
                  (resolvedPackage requirement locked0)),
                (e : Pkg × Dep).2.marker ⊆ P := by
              intro e he
              rw [mergeResult] at he
              split at he
              · rcases List.mem_map.mp he with ⟨e0, he0, heq⟩
                by_cases hk : e0.1 == resolvedPackage requirement locked0
                · rw [if_pos hk] at heq
                  rw [← heq]
                  exact Finset.union_subset (hn e0 he0) hreqm
                · rw [if_neg hk] at heq
                  rw [← heq]
                  exact hn e0 he0
              · rcases List.mem_append.mp he with he | he
                · exact hn e he
                · rcases List.mem_singleton.mp he with rfl
                  exact hreqm
            cases hres2
            exact ih _ _ _ hqueue hnested res hres

/-- Claim C10: with a project python marker given, the walk behaves exactly
as if every root requirement's marker had been replaced by its
intersection with that marker beforehand (the original requirement values
are untouched — the narrowing builds new requirements); consequently, when
the extras-stripping of the marker algebra respects the project python
marker, every condition in the final result map is narrowed by it. With no
project python marker the root markers are used unchanged. -/
theorem C10_project_python_marker (withoutExtras : Marker → Marker)
    (getExtraPackageNames : List Pkg → List (String × List String) → List String → List String)
    (lockedPackages : List Pkg) (lockDataExtras : List (String × List String))
    (projectRequires : List Dep) (pm : Marker) (extras : ExtrasSelection)
    (fuel : Nat)
    (hwe : ∀ m : Marker, m ⊆ pm → withoutExtras m ⊆ pm) :
    (getProjectDependencyPackages withoutExtras getExtraPackageNames
        lockedPackages lockDataExtras projectRequires (some pm) extras fuel =
      getProjectDependencyPackages withoutExtras getExtraPackageNames
        lockedPackages lockDataExtras
        (projectRequires.map (fun r => { r with marker := r.marker ∩ pm }))
        none extras fuel) ∧
    (∀ res,
      getProjectDependencyPackages withoutExtras getExtraPackageNames
          lockedPackages lockDataExtras projectRequires (some pm) extras fuel
        = .ok res →
      ∀ e ∈ res, (e : Pkg × Dep).2.marker ⊆ pm) := by
  constructor
  · rfl
  · intro res hres e he
    refine walkAux_marker_closed withoutExtras (packagesByName lockedPackages)
      pm hwe fuel _ [] [] ?_ (by intro e he; cases he) res hres e he
    intro d hd
    have hd2 : d ∈ projectRequires.map
        (fun r => { r with marker := r.marker ∩ pm }) :=
      List.mem_of_mem_filter hd
    rcases List.mem_map.mp hd2 with ⟨r, _, heq⟩
    rw [← heq]
    exact Finset.inter_subset_right

/-- Witness for C10 at a concrete input: narrowing a root marker by a
project python marker before the walk equals passing the marker, and the
resulting conditions stay inside the project python marker. -/
theorem C10_project_python_marker_witness :
    (getProjectDependencyPackages id (fun _ _ _ => []) [pkgC4v1] [] [depC4]
        (some {0}) (.selected []) 3 =
      getProjectDependencyPackages id (fun _ _ _ => []) [pkgC4v1] []
        [{ depC4 with marker := depC4.marker ∩ {0} }] none (.selected []) 3) ∧
    ∀ res,
      getProjectDependencyPackages id (fun _ _ _ => []) [pkgC4v1] [] [depC4]
          (some {0}) (.selected []) 3 = .ok res →
      ∀ e ∈ res, (e : Pkg × Dep).2.marker ⊆ ({0} : Marker) :=
  C10_project_python_marker id (fun _ _ _ => []) [pkgC4v1] [] [depC4] {0}
    (.selected []) 3 (fun _ hm => hm)

/-! ### Claim C1 -/

/-- Looking the merged key up after a merge: first arrival stores the new
requirement, any later arrival stores the union of the old and new
markers. -/
theorem lookupDecided_mergeResult (nested : List (Pkg × Dep)) (key : Pkg)
    (requirement : Dep) :
    lookupDecided (mergeResult nested key requirement) key =
      match lookupDecided nested key with
      | none => some requirement
      | some old =>
        some { old with marker := old.marker ∪ requirement.marker } := by
  rcases hf : nested.find? (fun e => e.1 == key) with _ | e0
  · have hl : lookupDecided nested key = none := by
      rw [lookupDecided, hf]
      rfl
    rw [hl, mergeResult, if_neg (by rw [hf]; simp), lookupDecided,
      List.find?_append, hf]
    simp
  · have hkey0 := List.find?_some hf
    have hkey : (e0.1 == key) = true := hkey0
    have hl : lookupDecided nested key = some e0.2 := by
      rw [lookupDecided, hf]
      rfl
    rw [hl, mergeResult, if_pos (by rw [hf]; rfl), lookupDecided,
      List.find?_map]
    have hpf : ((fun e => e.1 == key) ∘
        (fun e : Pkg × Dep => if e.1 == key then
          (e.1, { e.2 with marker := e.2.marker ∪ requirement.marker })
          else e)) = (fun e : Pkg × Dep => e.1 == key) := by
      funext e
      by_cases h : (e.1 == key) = true
      · have he : e.1 = key := by simpa using h
        simp [Function.comp, he]
      · have he : ¬ e.1 = key := by simpa using h
        simp [Function.comp, he]
    rw [hpf, hf]
    have he0 : e0.1 = key := by simpa using hkey
    simp [he0]

def depC1root : Dep :=
  { name := "a", constraint := {1}, marker := {0, 1},
    pythonConstraint := ∅, extras := ∅, optional := false }

def depC1b : Dep :=
  { name := "x", constraint := {1}, marker := {0},
    pythonConstraint := ∅, extras := ∅, optional := false }

def depC1c : Dep :=
  { name := "x", constraint := {1}, marker := {1},
    pythonConstraint := ∅, extras := ∅, optional := false }

def pkgC1a : Pkg :=
  { name := "a", version := 1, marker := {0, 1}, pythonConstraint := ∅,
    requires := [depC1b, depC1c], extrasTable := [], features := ∅,
    optional := false }

def pkgC1x : Pkg :=
  { name := "x", version := 1, marker := {0, 1}, pythonConstraint := ∅,
    requires := [], extrasTable := [], features := ∅, optional := false }

/-- The union of the two disjoint diamond-path conditions. -/
def markerUnionC1 : Marker := depC1b.marker ∪ depC1c.marker

/-- Claim C1: on first arrival at a locked package the walker inserts the
requirement's condition, and on every later arrival it replaces the stored
condition with the union of the stored and the new condition; in a
concrete diamond where package "x" is reached via two requirements with
disjoint conditions, the final result for "x" carries exactly the union of
both conditions. -/
theorem C1_union_merge :
    (∀ (nested : List (Pkg × Dep)) (key : Pkg) (requirement : Dep),
      (lookupDecided nested key = none →
        lookupDecided (mergeResult nested key requirement) key =
          some requirement) ∧
      (∀ old, lookupDecided nested key = some old →
        lookupDecided (mergeResult nested key requirement) key =
          some { old with marker := old.marker ∪ requirement.marker })) ∧
    (({0} : Marker) ∩ {1} = ∅ ∧
      walkDependencies id [depC1root] (packagesByName [pkgC1a, pkgC1x]) 5 =
        .ok [(pkgC1a,
              { pkgC1a.toDependency with marker := {0, 1}, constraint := {1} }),
             (pkgC1x,
              { pkgC1x.toDependency with
                marker := markerUnionC1
                constraint := {1} })]) := by
  constructor
  · intro nested key requirement
    constructor
    · intro h
      rw [lookupDecided_mergeResult, h]
    · intro old h
      rw [lookupDecided_mergeResult, h]
  · exact ⟨by decide, by decide⟩

/-- Witness for C1 at a concrete input: inserting into an empty result map
stores the requirement, and merging the same key again unions the
markers. -/
theorem C1_union_merge_witness :
    lookupDecided (mergeResult [] pkgC1x depC1b) pkgC1x = some depC1b ∧
    lookupDecided (mergeResult (mergeResult [] pkgC1x depC1b) pkgC1x depC1c)
        pkgC1x = some { depC1b with marker := depC1b.marker ∪ depC1c.marker } := by
  have h1 := ((C1_union_merge.1 [] pkgC1x depC1b).1) (by decide)
  have h2 := ((C1_union_merge.1 (mergeResult [] pkgC1x depC1b) pkgC1x
    depC1c).2) depC1b h1
  exact ⟨h1, h2⟩

/-! ### Claim C6: termination -/

/-- All dependency values a walk from these roots over this lock can ever
derive its queue entries from: the roots and the declared dependencies of
the locked packages. -/
def baseDeps (roots : List Dep) (lockedPackages : List Pkg) : List Dep :=
  roots ++ (lockedPackages.map Pkg.requires).flatten

/-- The finite space of queue entries: a base dependency with its marker
shrunk to any subset (conditions only ever shrink along an edge). -/
def depSpace (roots : List Dep) (lockedPackages : List Pkg) : Finset Dep :=
  (baseDeps roots lockedPackages).toFinset.biUnion
    (fun d0 => d0.marker.powerset.image (fun m => { d0 with marker := m }))

/-- Upper bound on how many dependencies one expansion step can enqueue. -/
def requiresBound (lockedPackages : List Pkg) : Nat :=
  (lockedPackages.map (fun p => p.requires.length)).sum

theorem narrowed_mem_depSpace {d0 : Dep} {m : Marker} {roots : List Dep}
    {locked : List Pkg} (hd : d0 ∈ baseDeps roots locked)
    (hm : m ⊆ d0.marker) :
    { d0 with marker := m } ∈ depSpace roots locked := by
  rw [depSpace, Finset.mem_biUnion]
  refine ⟨d0, List.mem_toFinset.mpr hd, ?_⟩
  rw [Finset.mem_image]
  exact ⟨m, Finset.mem_powerset.mpr hm, rfl⟩

theorem self_mem_depSpace {d : Dep} {roots : List Dep} {locked : List Pkg}
    (hd : d ∈ baseDeps roots locked) : d ∈ depSpace roots locked := by
  have h := narrowed_mem_depSpace hd (subset_refl d.marker)
  have he : { d with marker := d.marker } = d := rfl
  rw [he] at h
  exact h

theorem resolvedPackage_requires (requirement : Dep) (locked0 : Pkg) :
    (resolvedPackage requirement locked0).requires = locked0.requires := by
  rw [resolvedPackage]
  split <;> rfl

theorem requires_length_le {p : Pkg} {locked : List Pkg} (hp : p ∈ locked) :
    p.requires.length ≤ requiresBound locked := by
  rw [requiresBound]
  exact List.single_le_sum (by simp) _
    (List.mem_map_of_mem (fun p => p.requires.length) hp)

/-- A resolved package always comes from the lock when the index was built
from the lock. -/
theorem getLockedPackage_mem_locked {dependency : Dep} {locked : List Pkg}
    {decided : List (Pkg × Dep)} {locked0 : Pkg}
    (h : getLockedPackage dependency (packagesByName locked) decided =
      some locked0) : locked0 ∈ locked :=
  (mem_packagesByName.mp (mem_consistentPackages.mp
    (getLockedPackage_mem h)).1).1

/-- Well-formed visited list: no duplicates, every entry's dependency lies
in the finite space, and every entry is a (dependency, own marker) pair. -/
def visitedOk (roots : List Dep) (locked : List Pkg)
    (visited : List (Dep × Marker)) : Prop :=
  visited.Nodup ∧ ∀ e ∈ visited, (e : Dep × Marker).1 ∈ depSpace roots locked
    ∧ e.2 = e.1.marker

theorem visited_length_le {roots : List Dep} {locked : List Pkg}
    {visited : List (Dep × Marker)} (h : visitedOk roots locked visited) :
    visited.length ≤ (depSpace roots locked).card := by
  have hmap : (visited.map Prod.fst).Nodup := by
    refine List.Nodup.map_on ?_ h.1
    intro x hx y hy hxy
    have hx2 := (h.2 x hx).2
    have hy2 := (h.2 y hy).2
    have : x.2 = y.2 := by rw [hx2, hy2, hxy]
    exact Prod.ext hxy this
  have hsub : (visited.map Prod.fst).toFinset ⊆ depSpace roots locked := by
    intro d hd
    rcases List.mem_map.mp (List.mem_toFinset.mp hd) with ⟨e, he, heq⟩
    exact heq ▸ (h.2 e he).1
  calc visited.length = (visited.map Prod.fst).length := by rw [List.length_map]
    _ = (visited.map Prod.fst).toFinset.card :=
        (List.toFinset_card_of_nodup hmap).symm
    _ ≤ (depSpace roots locked).card := Finset.card_le_card hsub

/-- The worklist loop never exhausts its fuel once the fuel exceeds the
measure `queue length + remaining unvisited pairs × (expansion bound + 1)`:
each iteration either shortens the queue (skip) or visits a fresh pair of
the finite space while enqueueing at most the expansion bound. -/
theorem walkAux_no_fuelOut (withoutExtras : Marker → Marker)
    (roots : List Dep) (locked : List Pkg) :
    ∀ (fuel : Nat) (queue : List Dep) (visited : List (Dep × Marker))
      (nested : List (Pkg × Dep)),
      (∀ d ∈ queue, d ∈ depSpace roots locked) →
      visitedOk roots locked visited →
      queue.length + ((depSpace roots locked).card - visited.length) *
        (requiresBound locked + 1) < fuel →
      walkAux withoutExtras (packagesByName locked) fuel queue visited nested
        ≠ .fuelOut := by
  intro fuel
  induction fuel with
  | zero =>
    intro queue visited nested _ _ hlt
    omega
  | succ fuel ih =>
    intro queue visited nested hq hv hlt
    match queue with
    | [] =>
      rw [walkAux]
      simp
    | requirement :: rest =>
      by_cases hvis : (requirement, requirement.marker) ∈ visited
      · rw [walkAux, if_pos hvis]
        refine ih rest visited nested
          (fun d hd => hq d (List.mem_cons_of_mem _ hd)) hv ?_
        rw [List.length_cons] at hlt
        omega
      · rw [walkAux, if_neg hvis]
        rcases hlp : getLockedPackage requirement (packagesByName locked)
            nested with _ | locked0
        · rw [walkStep_of_unresolved hlp]
          simp
        · rw [walkStep_of_resolved hlp]
          have hreq : requirement ∈ depSpace roots locked :=
            hq requirement (List.mem_cons_self _ _)
          have hv' : visitedOk roots locked
              ((requirement, requirement.marker) :: visited) := by
            refine ⟨List.nodup_cons.mpr ⟨hvis, hv.1⟩, ?_⟩
            intro e he
            rcases List.mem_cons.mp he with he | he
            · rw [he]
              exact ⟨hreq, rfl⟩
            · exact hv.2 e he
          have hcard : visited.length + 1 ≤ (depSpace roots locked).card := by
            have := visited_length_le hv'
            rw [List.length_cons] at this
            exact this
          have hq' : ∀ d ∈ rest ++ stepNewDeps withoutExtras
              (resolvedPackage requirement locked0)
              (stepRequirement requirement
                (resolvedPackage requirement locked0)).marker,
              d ∈ depSpace roots locked := by
            intro d hd
            rcases List.mem_append.mp hd with hd | hd
            · exact hq d (List.mem_cons_of_mem _ hd)
            · rcases mem_stepNewDeps hd with ⟨require, hmem, heq, _, _⟩
              rw [resolvedPackage_requires] at hmem
              have hbase : require ∈ baseDeps roots locked := by
                rw [baseDeps]
                refine List.mem_append_right _ ?_
                rw [List.mem_flatten]
                exact ⟨locked0.requires,
                  List.mem_map_of_mem Pkg.requires
                    (getLockedPackage_mem_locked hlp), hmem⟩
              rw [heq]
              exact narrowed_mem_depSpace hbase (Finset.inter_subset_left)
          refine ih _ _ _ hq' hv' ?_
          have hlen : (stepNewDeps withoutExtras
              (resolvedPackage requirement locked0)
              (stepRequirement requirement
                (resolvedPackage requirement locked0)).marker).length ≤
              requiresBound locked := by
            calc (stepNewDeps withoutExtras (resolvedPackage requirement locked0)
                (stepRequirement requirement
                  (resolvedPackage requirement locked0)).marker).length
                ≤ (resolvedPackage requirement locked0).requires.length :=
                  List.length_filterMap_le _ _
              _ = locked0.requires.length := by rw [resolvedPackage_requires]
              _ ≤ requiresBound locked :=
                  requires_length_le (getLockedPackage_mem_locked hlp)
          simp only [List.length_append, List.length_cons] at hlt ⊢
          have hsplit : (depSpace roots locked).card - visited.length =
              ((depSpace roots locked).card - (visited.length + 1)) + 1 := by
            omega
          rw [hsplit, add_mul, one_mul] at hlt
          generalize ((depSpace roots locked).card - (visited.length + 1)) *
            (requiresBound locked + 1) = t at hlt ⊢
          omega

/-- Claim C6: a (requirement, condition) pair already visited is skipped
and never re-expanded, and for every finite lock and root list the walk
terminates: there is a fuel bound within which the embedded loop finishes
(it never exhausts the fuel), cycles included, because the visited set
grows inside the finite space of reachable (requirement, condition)
pairs. -/
theorem C6_termination (withoutExtras : Marker → Marker) (roots : List Dep)
    (locked : List Pkg) :
    (∀ (requirement : Dep) (rest : List Dep)
        (visited : List (Dep × Marker)) (nested : List (Pkg × Dep))
        (fuel : Nat),
      (requirement, requirement.marker) ∈ visited →
      walkAux withoutExtras (packagesByName locked) (fuel + 1)
          (requirement :: rest) visited nested =
        walkAux withoutExtras (packagesByName locked) fuel rest visited
          nested) ∧
    ∃ fuel,
      walkDependencies withoutExtras roots (packagesByName locked) fuel ≠
        .fuelOut := by
  constructor
  · intro requirement rest visited nested fuel hvis
    rw [walkAux, if_pos hvis]
  · refine ⟨roots.length + ((depSpace roots locked).card + 1) *
      (requiresBound locked + 1) + 1, ?_⟩
    rw [walkDependencies]
    refine walkAux_no_fuelOut withoutExtras roots locked _ roots [] [] ?_ ?_ ?_
    · intro d hd
      exact self_mem_depSpace (List.mem_append_left _ hd)
    · exact ⟨List.nodup_nil, by intro e he; cases he⟩
    · have h0 : ([] : List (Dep × Marker)).length = 0 := rfl
      rw [h0]
      have hle : ((depSpace roots locked).card - 0) *
          (requiresBound locked + 1) ≤
          ((depSpace roots locked).card + 1) * (requiresBound locked + 1) :=
        Nat.mul_le_mul_right _ (by omega)
      omega

/-- A concrete cyclic lock: package "ca" requires "cb" and "cb" requires
"ca". -/
def depCyA : Dep :=
  { name := "ca", constraint := {1}, marker := {0},
    pythonConstraint := ∅, extras := ∅, optional := false }

def depCyB : Dep :=
  { name := "cb", constraint := {1}, marker := {0},
    pythonConstraint := ∅, extras := ∅, optional := false }

def pkgCyA : Pkg :=
  { name := "ca", version := 1, marker := {0}, pythonConstraint := ∅,
    requires := [depCyB], extrasTable := [], features := ∅,
    optional := false }

def pkgCyB : Pkg :=
  { name := "cb", version := 1, marker := {0}, pythonConstraint := ∅,
    requires := [depCyA], extrasTable := [], features := ∅,
    optional := false }

/-- Witness for C6: on a concrete cyclic lock the skip rule applies to a
visited pair, and the walk terminates. -/
theorem C6_termination_witness :
    (walkAux id (packagesByName [pkgCyA, pkgCyB]) 1
        [depCyA] [(depCyA, depCyA.marker)] [] =
      walkAux id (packagesByName [pkgCyA, pkgCyB]) 0 [] [(depCyA, depCyA.marker)] []) ∧
    ∃ fuel,
      walkDependencies id [depCyA] (packagesByName [pkgCyA, pkgCyB]) fuel ≠
        .fuelOut :=
  ⟨(C6_termination id [depCyA] [pkgCyA, pkgCyB]).1 depCyA [] _ [] 0
      (by decide),
    (C6_termination id [depCyA] [pkgCyA, pkgCyB]).2⟩

/-! ### Claim C9: work-queue order and the final map -/

def depC9exact : Dep :=
  { name := "foo", constraint := {1}, marker := {0},
    pythonConstraint := ∅, extras := ∅, optional := false }

def depC9ge : Dep :=
  { name := "foo", constraint := {1, 2}, marker := {0},
    pythonConstraint := ∅, extras := ∅, optional := false }

def pkgC9v1 : Pkg :=
  { name := "foo", version := 1, marker := {0, 1}, pythonConstraint := ∅,
    requires := [], extrasTable := [], features := ∅, optional := false }

def pkgC9v2 : Pkg :=
  { name := "foo", version := 2, marker := {0, 1}, pythonConstraint := ∅,
    requires := [], extrasTable := [], features := ∅, optional := false }

/-- Claim C9, as stated, is false: with two locked versions of "foo" in the
lock, walking the same two root requirements in the two possible orders
yields different final maps — one order resolves both requirements to
version 1 (the previous decision is compatible and wins), the other pins
the looser requirement to version 2 first, so version 2 appears in one
result map and not in the other. -/
theorem C9_counterexample :
    [depC9ge, depC9exact].Perm [depC9exact, depC9ge] ∧
    walkDependencies id [depC9exact, depC9ge]
        (packagesByName [pkgC9v1, pkgC9v2]) 3 =
      .ok [(pkgC9v1,
            { pkgC9v1.toDependency with marker := {0}, constraint := {1} })] ∧
    walkDependencies id [depC9ge, depC9exact]
        (packagesByName [pkgC9v1, pkgC9v2]) 3 =
      .ok [(pkgC9v2,
            { pkgC9v2.toDependency with marker := {0}, constraint := {1, 2} }),
           (pkgC9v1,
            { pkgC9v1.toDependency with marker := {0}, constraint := {1} })] ∧
    lookupDecided [(pkgC9v1,
        { pkgC9v1.toDependency with marker := {0}, constraint := {1} })]
      pkgC9v2 = none := by
  refine ⟨by decide, by decide, by decide, by decide⟩

/-- Resolution when previous decisions cannot matter: the first filtered
candidate. -/
def resolveUnique (byName : String → List Pkg) (d : Dep) : Option Pkg :=
  (consistentPackages d byName).head?

/-- With at most one locked package per name, `get_locked_package` ignores
the previous decisions entirely. -/
theorem getLockedPackage_of_unique {byName : String → List Pkg}
    (H : ∀ n, (byName n).length ≤ 1) (d : Dep)
    (decided : List (Pkg × Dep)) :
    getLockedPackage d byName decided = resolveUnique byName d := by
  have hlen : (consistentPackages d byName).length ≤ 1 :=
    le_trans (List.length_filter_le _ _) (H d.name)
  rw [resolveUnique]
  rcases hc : consistentPackages d byName with _ | ⟨p, rest⟩
  · rw [getLockedPackage, hc]
    rfl
  · rcases rest with _ | ⟨q, rest2⟩
    · rw [getLockedPackage, hc]
      rcases hp : previousDecisionOk d decided p
      · simp [List.find?, hp]
      · simp [List.find?, hp]
    · rw [hc, List.length_cons, List.length_cons] at hlen
      omega

/-- The package key a requirement resolves to under unique resolution. -/
def keyOfDep (requirement : Dep) (byName : String → List Pkg) : Option Pkg :=
  match resolveUnique byName requirement with
  | none => none
  | some locked0 => some (resolvedPackage requirement locked0)

/-- The edge condition of a requirement under unique resolution. -/
def edgeMarkerOf (requirement : Dep) (byName : String → List Pkg) : Marker :=
  match resolveUnique byName requirement with
  | none => ∅
  | some locked0 =>
    (stepRequirement requirement (resolvedPackage requirement locked0)).marker

/-- The dependencies a requirement enqueues under unique resolution. -/
def childrenOf (withoutExtras : Marker → Marker)
    (byName : String → List Pkg) (requirement : Dep) : List Dep :=
  match resolveUnique byName requirement with
  | none => []
  | some locked0 =>
    stepNewDeps withoutExtras (resolvedPackage requirement locked0)
      (stepRequirement requirement (resolvedPackage requirement locked0)).marker

/-- Requirements reachable from a base set by repeated expansion. -/
inductive Reachable (withoutExtras : Marker → Marker)
    (byName : String → List Pkg) (S : Dep → Prop) : Dep → Prop where
  | base {d : Dep} : S d → Reachable withoutExtras byName S d
  | step {d c : Dep} : Reachable withoutExtras byName S d →
      c ∈ childrenOf withoutExtras byName d →
      Reachable withoutExtras byName S c

theorem Reachable.mono {withoutExtras : Marker → Marker}
    {byName : String → List Pkg} {S T : Dep → Prop}
    (h : ∀ x, S x → T x) {x : Dep}
    (hx : Reachable withoutExtras byName S x) :
    Reachable withoutExtras byName T x := by
  induction hx with
  | base hd => exact .base (h _ hd)
  | step hd hc ih => exact .step ih hc

theorem Reachable.bind {withoutExtras : Marker → Marker}
    {byName : String → List Pkg} {S T : Dep → Prop}
    (h : ∀ x, T x → Reachable withoutExtras byName S x) {x : Dep}
    (hx : Reachable withoutExtras byName T x) :
    Reachable withoutExtras byName S x := by
  induction hx with
  | base hd => exact h _ hd
  | step hd hc ih => exact .step ih hc

theorem Reachable.of_closed {withoutExtras : Marker → Marker}
    {byName : String → List Pkg} {S : Dep → Prop}
    (h : ∀ d, S d → ∀ c ∈ childrenOf withoutExtras byName d, S c) {x : Dep}
    (hx : Reachable withoutExtras byName S x) : S x := by
  induction hx with
  | base hd => exact hd
  | step hd hc ih => exact h _ ih _ hc

/-- Merging under one key leaves every other key's entry unchanged. -/
theorem lookupDecided_mergeResult_ne (nested : List (Pkg × Dep))
    (key k : Pkg) (requirement : Dep) (hne : k ≠ key) :
    lookupDecided (mergeResult nested key requirement) k =
      lookupDecided nested k := by
  rw [mergeResult]
  split
  · rw [lookupDecided, List.find?_map]
    have hpf : ((fun e => e.1 == k) ∘
        (fun e : Pkg × Dep => if e.1 == key then
          (e.1, { e.2 with marker := e.2.marker ∪ requirement.marker })
          else e)) = (fun e : Pkg × Dep => e.1 == k) := by
      funext e
      by_cases h : (e.1 == key) = true
      · have he : e.1 = key := by simpa using h
        simp [Function.comp, he]
      · have he : ¬ e.1 = key := by simpa using h
        simp [Function.comp, he]
    rw [hpf, lookupDecided]
    rcases hf : nested.find? (fun e => e.1 == k) with _ | e0
    · rw [hf]
      rfl
    · have hk0 := List.find?_some hf
      have hk : e0.1 = k := by simpa using hk0
      have hnk : ¬ e0.1 = key := by rw [hk]; exact hne
      rw [hf]
      simp [hnk]
  · rw [lookupDecided, lookupDecided, List.find?_append]
    have hkk : (key == k) = false := by
      rw [beq_eq_false_iff_ne]
      exact fun h => hne h.symm
    have hone : List.find? (fun e : Pkg × Dep => e.1 == k)
        [(key, requirement)] = none := by
      simp [List.find?, hkk]
    rw [hone, Option.or_none]

/-- The final map of a successful walk with unique resolution is fully
characterised by the reachable set of the starting state: a key is present
iff some reachable requirement resolves to it, and its stored condition is
exactly the union of the edge conditions of the reachable requirements
resolving to it. -/
theorem walkAux_unique_char (withoutExtras : Marker → Marker)
    (byName : String → List Pkg) (H : ∀ n, (byName n).length ≤ 1) :
    ∀ (fuel : Nat) (queue : List Dep) (visited : List (Dep × Marker))
      (nested : List (Pkg × Dep)) (res : List (Pkg × Dep)),
      (∀ p ∈ visited, ∀ c ∈ childrenOf withoutExtras byName
          (p : Dep × Marker).1, c ∈ queue ∨ (c, c.marker) ∈ visited) →
      (∀ k : Pkg, ((lookupDecided nested k).isSome ↔
          ∃ d : Dep, (d, d.marker) ∈ visited ∧ keyOfDep d byName = some k)) →
      (∀ (k : Pkg) (v : Dep), lookupDecided nested k = some v →
        ∀ x : Nat, x ∈ v.marker ↔
          ∃ d : Dep, (d, d.marker) ∈ visited ∧ keyOfDep d byName = some k ∧
            x ∈ edgeMarkerOf d byName) →
      walkAux withoutExtras byName fuel queue visited nested = .ok res →
      ∀ k : Pkg,
        ((lookupDecided res k).isSome ↔
          ∃ d : Dep, Reachable withoutExtras byName
              (fun y => y ∈ queue ∨ (y, y.marker) ∈ visited) d ∧
            keyOfDep d byName = some k) ∧
        ∀ v : Dep, lookupDecided res k = some v →
          ∀ x : Nat, x ∈ v.marker ↔
            ∃ d : Dep, Reachable withoutExtras byName
                (fun y => y ∈ queue ∨ (y, y.marker) ∈ visited) d ∧
              keyOfDep d byName = some k ∧ x ∈ edgeMarkerOf d byName := by
  intro fuel
  induction fuel with
  | zero =>
    intro queue visited nested res _ _ _ hres
    cases hres
  | succ fuel ih =>
    intro queue visited nested res hclosed hiff hmark hres
    match queue with
    | [] =>
      rw [walkAux] at hres
      cases hres
      have hclset : ∀ d : Dep,
          Reachable withoutExtras byName
            (fun y => y ∈ ([] : List Dep) ∨ (y, y.marker) ∈ visited) d ↔
          (d, d.marker) ∈ visited := by
        intro d
        constructor
        · intro hd
          have := Reachable.of_closed ?_ hd
          · rcases this with h | h
            · cases h
            · exact h
          · intro e he c hc
            rcases he with he | he
            · cases he
            · rcases hclosed (e, e.marker) he c hc with h | h
              · cases h
              · exact Or.inr h
        · intro hd
          exact .base (Or.inr hd)
      intro k
      constructor
      · rw [hiff k]
        constructor
        · rintro ⟨d, hd, hk⟩
          exact ⟨d, (hclset d).mpr hd, hk⟩
        · rintro ⟨d, hd, hk⟩
          exact ⟨d, (hclset d).mp hd, hk⟩
      · intro v hv x
        rw [hmark k v hv x]
        constructor
        · rintro ⟨d, hd, hk, hx⟩
          exact ⟨d, (hclset d).mpr hd, hk, hx⟩
        · rintro ⟨d, hd, hk, hx⟩
          exact ⟨d, (hclset d).mp hd, hk, hx⟩
    | requirement :: rest =>
      by_cases hvis : (requirement, requirement.marker) ∈ visited
      · rw [walkAux, if_pos hvis] at hres
        have hclosed2 : ∀ p ∈ visited, ∀ c ∈ childrenOf withoutExtras byName
            (p : Dep × Marker).1, c ∈ rest ∨ (c, c.marker) ∈ visited := by
          intro p hp c hc
          rcases hclosed p hp c hc with h | h
          · rcases List.mem_cons.mp h with h | h
            · exact Or.inr (h ▸ hvis)
            · exact Or.inl h
          · exact Or.inr h
        have hchar := ih rest visited nested res hclosed2 hiff hmark hres
        have hsets : ∀ d : Dep,
            Reachable withoutExtras byName
              (fun y => y ∈ rest ∨ (y, y.marker) ∈ visited) d ↔
            Reachable withoutExtras byName
              (fun y => y ∈ requirement :: rest ∨ (y, y.marker) ∈ visited)
              d := by
          intro d
          constructor
          · exact Reachable.mono (fun x hx => by
              rcases hx with hx | hx
              · exact Or.inl (List.mem_cons_of_mem _ hx)
              · exact Or.inr hx)
          · refine Reachable.bind (fun x hx => ?_)
            rcases hx with hx | hx
            · rcases List.mem_cons.mp hx with hx | hx
              · exact .base (Or.inr (hx ▸ hvis))
              · exact .base (Or.inl hx)
            · exact .base (Or.inr hx)
        intro k
        constructor
        · rw [(hchar k).1]
          constructor
          · rintro ⟨d, hd, hk⟩
            exact ⟨d, (hsets d).mp hd, hk⟩
          · rintro ⟨d, hd, hk⟩
            exact ⟨d, (hsets d).mpr hd, hk⟩
        · intro v hv x
          rw [(hchar k).2 v hv x]
          constructor
          · rintro ⟨d, hd, hk, hx⟩
            exact ⟨d, (hsets d).mp hd, hk, hx⟩
          · rintro ⟨d, hd, hk, hx⟩
            exact ⟨d, (hsets d).mpr hd, hk, hx⟩
      · rw [walkAux, if_neg hvis] at hres
        rcases hlp : getLockedPackage requirement byName nested with _ | locked0
        · rw [walkStep_of_unresolved hlp] at hres
          cases hres
        · rw [walkStep_of_resolved hlp] at hres
          have hru : resolveUnique byName requirement = some locked0 := by
            rw [← getLockedPackage_of_unique H requirement nested]
            exact hlp
          have hkeyreq : keyOfDep requirement byName =
              some (resolvedPackage requirement locked0) := by
            rw [keyOfDep, hru]
          have hedgereq : edgeMarkerOf requirement byName =
              (stepRequirement requirement
                (resolvedPackage requirement locked0)).marker := by
            rw [edgeMarkerOf, hru]
          have hchildreq : childrenOf withoutExtras byName requirement =
              stepNewDeps withoutExtras (resolvedPackage requirement locked0)
                (stepRequirement requirement
                  (resolvedPackage requirement locked0)).marker := by
            rw [childrenOf, hru]
          have hclosed2 : ∀ p ∈ (requirement, requirement.marker) :: visited,
              ∀ c ∈ childrenOf withoutExtras byName (p : Dep × Marker).1,
              c ∈ rest ++ stepNewDeps withoutExtras
                (resolvedPackage requirement locked0)
                (stepRequirement requirement
                  (resolvedPackage requirement locked0)).marker ∨
              (c, c.marker) ∈ (requirement, requirement.marker) :: visited := by
            intro p hp c hc
            rcases List.mem_cons.mp hp with hp | hp
            · rw [hp] at hc
              rw [hchildreq] at hc
              exact Or.inl (List.mem_append_right _ hc)
            · rcases hclosed p hp c hc with h | h
              · rcases List.mem_cons.mp h with h | h
                · exact Or.inr (List.mem_cons.mpr (Or.inl (by rw [h])))
                · exact Or.inl (List.mem_append_left _ h)
              · exact Or.inr (List.mem_cons_of_mem _ h)
          have hiff2 : ∀ k : Pkg,
              ((lookupDecided (mergeResult nested
                  (resolvedPackage requirement locked0)
                  (stepRequirement requirement
                    (resolvedPackage requirement locked0))) k).isSome ↔
                ∃ d : Dep, (d, d.marker) ∈
                    (requirement, requirement.marker) :: visited ∧
                  keyOfDep d byName = some k) := by
            intro k
            by_cases hk : k = resolvedPackage requirement locked0
            · subst hk
              rw [lookupDecided_mergeResult]
              constructor
              · intro _
                exact ⟨requirement, List.mem_cons_self _ _, hkeyreq⟩
              · intro _
                rcases hl : lookupDecided nested
                    (resolvedPackage requirement locked0) with _ | old <;>
                  simp [hl]
            · rw [lookupDecided_mergeResult_ne nested _ k _ hk]
              rw [hiff k]
              constructor
              · rintro ⟨d, hd, hkd⟩
                exact ⟨d, List.mem_cons_of_mem _ hd, hkd⟩
              · rintro ⟨d, hd, hkd⟩
                rcases List.mem_cons.mp hd with hd | hd
                · exfalso
                  have hdr : d = requirement := congrArg Prod.fst hd
                  rw [hdr, hkeyreq] at hkd
                  exact hk (Option.some.injEq _ _ ▸ hkd).symm
                · exact ⟨d, hd, hkd⟩
          have hmark2 : ∀ (k : Pkg) (v : Dep),
              lookupDecided (mergeResult nested
                (resolvedPackage requirement locked0)
                (stepRequirement requirement
                  (resolvedPackage requirement locked0))) k = some v →
              ∀ x : Nat, x ∈ v.marker ↔
                ∃ d : Dep, (d, d.marker) ∈
                    (requirement, requirement.marker) :: visited ∧
                  keyOfDep d byName = some k ∧
                  x ∈ edgeMarkerOf d byName := by
            intro k v hv x
            by_cases hk : k = resolvedPackage requirement locked0
            · subst hk
              rw [lookupDecided_mergeResult] at hv
              rcases hl : lookupDecided nested
                  (resolvedPackage requirement locked0) with _ | old
              · rw [hl] at hv
                simp only [Option.some.injEq] at hv
                subst hv
                constructor
                · intro hx
                  exact ⟨requirement, List.mem_cons_self _ _, hkeyreq,
                    by rw [hedgereq]; exact hx⟩
                · rintro ⟨d, hd, hkd, hx⟩
                  rcases List.mem_cons.mp hd with hd | hd
                  · have hdr : d = requirement := congrArg Prod.fst hd
                    rw [hdr, hedgereq] at hx
                    exact hx
                  · exfalso
                    have : (lookupDecided nested
                        (resolvedPackage requirement locked0)).isSome := by
                      rw [hiff]
                      exact ⟨d, hd, hkd⟩
                    rw [hl] at this
                    cases this
              · rw [hl] at hv
                simp only [Option.some.injEq] at hv
                subst hv
                simp only [Finset.mem_union]
                constructor
                · intro hx
                  rcases hx with hx | hx
                  · rcases (hmark _ old hl x).mp hx with ⟨d, hd, hkd, hxe⟩
                    exact ⟨d, List.mem_cons_of_mem _ hd, hkd, hxe⟩
                  · exact ⟨requirement, List.mem_cons_self _ _, hkeyreq,
                      by rw [hedgereq]; exact hx⟩
                · rintro ⟨d, hd, hkd, hxe⟩
                  rcases List.mem_cons.mp hd with hd | hd
                  · have hdr : d = requirement := congrArg Prod.fst hd
                    rw [hdr, hedgereq] at hxe
                    exact Or.inr hxe
                  · exact Or.inl ((hmark _ old hl x).mpr ⟨d, hd, hkd, hxe⟩)
            · rw [lookupDecided_mergeResult_ne nested _ k _ hk] at hv
              rw [hmark k v hv x]
              constructor
              · rintro ⟨d, hd, hkd, hxe⟩
                exact ⟨d, List.mem_cons_of_mem _ hd, hkd, hxe⟩
              · rintro ⟨d, hd, hkd, hxe⟩
                rcases List.mem_cons.mp hd with hd | hd
                · exfalso
                  have hdr : d = requirement := congrArg Prod.fst hd
                  rw [hdr, hkeyreq] at hkd
                  exact hk (Option.some.injEq _ _ ▸ hkd).symm
                · exact ⟨d, hd, hkd, hxe⟩
          have hchar := ih _ _ _ res hclosed2 hiff2 hmark2 hres
          have hsets : ∀ d : Dep,
              Reachable withoutExtras byName
                (fun y => y ∈ rest ++ stepNewDeps withoutExtras
                    (resolvedPackage requirement locked0)
                    (stepRequirement requirement
                      (resolvedPackage requirement locked0)).marker ∨
                  (y, y.marker) ∈ (requirement, requirement.marker) ::
                    visited) d ↔
              Reachable withoutExtras byName
                (fun y => y ∈ requirement :: rest ∨
                  (y, y.marker) ∈ visited) d := by
            intro d
            constructor
            · refine Reachable.bind (fun x hx => ?_)
              rcases hx with hx | hx
              · rcases List.mem_append.mp hx with hx | hx
                · exact .base (Or.inl (List.mem_cons_of_mem _ hx))
                · refine Reachable.step
                    (.base (Or.inl (List.mem_cons_self _ _))) ?_
                  rw [hchildreq]
                  exact hx
              · rcases List.mem_cons.mp hx with hx | hx
                · have hdr : x = requirement := congrArg Prod.fst hx
                  exact .base (Or.inl (hdr ▸ List.mem_cons_self _ _))
                · exact .base (Or.inr hx)
            · refine Reachable.bind (fun x hx => ?_)
              rcases hx with hx | hx
              · rcases List.mem_cons.mp hx with hx | hx
                · exact .base (Or.inr (List.mem_cons.mpr (Or.inl (by rw [hx]))))
                · exact .base (Or.inl (List.mem_append_left _ hx))
              · exact .base (Or.inr (List.mem_cons_of_mem _ hx))
          intro k
          constructor
          · rw [(hchar k).1]
            constructor
            · rintro ⟨d, hd, hk⟩
              exact ⟨d, (hsets d).mp hd, hk⟩
            · rintro ⟨d, hd, hk⟩
              exact ⟨d, (hsets d).mpr hd, hk⟩
          · intro v hv x
            rw [(hchar k).2 v hv x]
            constructor
            · rintro ⟨d, hd, hk0, hx⟩
              exact ⟨d, (hsets d).mp hd, hk0, hx⟩
            · rintro ⟨d, hd, hk0, hx⟩
              exact ⟨d, (hsets d).mpr hd, hk0, hx⟩

/-- Claim C9, amended: the final map content is NOT independent of
work-queue order in general (see the counterexample: the previous-decision
tie-break makes resolution order-sensitive when several locked versions of
one name are compatible). It IS order-independent whenever every package
name has at most one locked package: then any two successful walks over
permuted root lists produce maps with the same package keys and, key by
key, identical merged conditions. -/
theorem C9_order_independence (withoutExtras : Marker → Marker)
    (byName : String → List Pkg) (H : ∀ n, (byName n).length ≤ 1)
    (roots1 roots2 : List Dep) (hperm : roots1.Perm roots2)
    (fuel1 fuel2 : Nat) (res1 res2 : List (Pkg × Dep))
    (h1 : walkDependencies withoutExtras roots1 byName fuel1 = .ok res1)
    (h2 : walkDependencies withoutExtras roots2 byName fuel2 = .ok res2) :
    ∀ k : Pkg,
      ((lookupDecided res1 k).isSome ↔ (lookupDecided res2 k).isSome) ∧
      ∀ v1 v2, lookupDecided res1 k = some v1 →
        lookupDecided res2 k = some v2 → v1.marker = v2.marker := by
  have hiff0 : ∀ k : Pkg, ((lookupDecided ([] : List (Pkg × Dep)) k).isSome ↔
      ∃ d : Dep, (d, d.marker) ∈ ([] : List (Dep × Marker)) ∧
        keyOfDep d byName = some k) := by
    intro k
    constructor
    · intro h
      cases h
    · rintro ⟨d, hd, _⟩
      cases hd
  have hmark0 : ∀ (k : Pkg) (v : Dep),
      lookupDecided ([] : List (Pkg × Dep)) k = some v →
      ∀ x : Nat, x ∈ v.marker ↔
        ∃ d : Dep, (d, d.marker) ∈ ([] : List (Dep × Marker)) ∧
          keyOfDep d byName = some k ∧ x ∈ edgeMarkerOf d byName := by
    intro k v hv
    cases hv
  have hclosed0 : ∀ p ∈ ([] : List (Dep × Marker)),
      ∀ c ∈ childrenOf withoutExtras byName (p : Dep × Marker).1,
      c ∈ roots1 ∨ (c, c.marker) ∈ ([] : List (Dep × Marker)) := by
    intro p hp
    cases hp
  have hclosed0' : ∀ p ∈ ([] : List (Dep × Marker)),
      ∀ c ∈ childrenOf withoutExtras byName (p : Dep × Marker).1,
      c ∈ roots2 ∨ (c, c.marker) ∈ ([] : List (Dep × Marker)) := by
    intro p hp
    cases hp
  have hchar1 := walkAux_unique_char withoutExtras byName H fuel1 roots1 []
    [] res1 hclosed0 hiff0 hmark0 h1
  have hchar2 := walkAux_unique_char withoutExtras byName H fuel2 roots2 []
    [] res2 hclosed0' hiff0 hmark0 h2
  have hsets : ∀ d : Dep,
      Reachable withoutExtras byName
        (fun y => y ∈ roots1 ∨ (y, y.marker) ∈ ([] : List (Dep × Marker)))
        d ↔
      Reachable withoutExtras byName
        (fun y => y ∈ roots2 ∨ (y, y.marker) ∈ ([] : List (Dep × Marker)))
        d := by
    intro d
    constructor
    · exact Reachable.mono (fun x hx => by
        rcases hx with hx | hx
        · exact Or.inl (hperm.mem_iff.mp hx)
        · cases hx)
    · exact Reachable.mono (fun x hx => by
        rcases hx with hx | hx
        · exact Or.inl (hperm.mem_iff.mpr hx)
        · cases hx)
  intro k
  constructor
  · rw [(hchar1 k).1, (hchar2 k).1]
    constructor
    · rintro ⟨d, hd, hk⟩
      exact ⟨d, (hsets d).mp hd, hk⟩
    · rintro ⟨d, hd, hk⟩
      exact ⟨d, (hsets d).mpr hd, hk⟩
  · intro v1 v2 hv1 hv2
    apply Finset.ext
    intro x
    rw [(hchar1 k).2 v1 hv1 x, (hchar2 k).2 v2 hv2 x]
    constructor
    · rintro ⟨d, hd, hk0, hx⟩
      exact ⟨d, (hsets d).mp hd, hk0, hx⟩
    · rintro ⟨d, hd, hk0, hx⟩
      exact ⟨d, (hsets d).mpr hd, hk0, hx⟩

def pkgC9w : Pkg :=
  { name := "w", version := 1, marker := {0, 1}, pythonConstraint := ∅,
    requires := [], extrasTable := [], features := ∅, optional := false }

def depC9w1 : Dep :=
  { name := "w", constraint := {1}, marker := {0},
    pythonConstraint := ∅, extras := ∅, optional := false }

def depC9w2 : Dep :=
  { name := "w", constraint := {1}, marker := {1},
    pythonConstraint := ∅, extras := ∅, optional := false }

def byNameC9w : String → List Pkg :=
  fun n => if n = "w" then [pkgC9w] else []

/-- The result entries of the two witness runs: same key, same merged
condition (written in either accumulation order). -/
def depC9wr1 : Dep :=
  { pkgC9w.toDependency with marker := {0, 1}, constraint := {1} }

def depC9wr2 : Dep :=
  { pkgC9w.toDependency with marker := {1, 0}, constraint := {1} }

def resC9wA : List (Pkg × Dep) := [(pkgC9w, depC9wr1)]

def resC9wB : List (Pkg × Dep) := [(pkgC9w, depC9wr2)]

/-- Witness for the amended C9 theorem at a concrete input: a one-package
lock walked from two roots in either order stores the package with equal
merged conditions. -/
theorem C9_order_independence_witness :
    depC9wr1.marker = depC9wr2.marker ∧
    lookupDecided resC9wA pkgC9w = some depC9wr1 ∧
    lookupDecided resC9wB pkgC9w = some depC9wr2 := by
  have hH : ∀ n, (byNameC9w n).length ≤ 1 := by
    intro n
    rw [byNameC9w]
    by_cases h : n = "w"
    · rw [if_pos h]
      exact le_refl _
    · rw [if_neg h]
      exact Nat.zero_le _
  have h := C9_order_independence id byNameC9w hH [depC9w1, depC9w2]
    [depC9w2, depC9w1] (List.Perm.swap _ _ _) 3 3 resC9wA resC9wB
    (by decide) (by decide)
  exact ⟨(h pkgC9w).2 depC9wr1 depC9wr2 (by decide) (by decide),
    by decide, by decide⟩

end PoetryExport
